import Mathlib

/-!
Verification of the stage schedule generator (`schedule_generator.py`).

Shallow embedding: timestamps are integers (only their ordering matters to the
algorithm), a show `(name, start, end)` is a record, the `heapq` free pool is
modelled as an ascending sorted list, and the insertion-ordered Python dicts
`schedule` and `show_stage` are association lists.  The `KeyError` that
`show_stage[index]` can raise is modelled by `Option`.
-/

/-- A show `(name, start, end)`; the Python tuple's `end` field is called `stop`. -/
structure Show where
  name : String
  start : Int
  stop : Int
deriving DecidableEq, Repr

/-- Default show handed to `List.getD`; the sweep only ever looks up in-range indices. -/
def dShow : Show := ⟨"", 0, 0⟩

/-- A sweep marker `(time, event_type, index)`: type `1` is a start, `0` an end. -/
abbrev Event := Int × Nat × Nat

/-- Lexicographic tuple comparison, as used by Python's `events.sort()`. -/
def eventLE (a b : Event) : Prop :=
  a.1 < b.1 ∨ (a.1 = b.1 ∧ (a.2.1 < b.2.1 ∨ (a.2.1 = b.2.1 ∧ a.2.2 ≤ b.2.2)))

instance : DecidableRel eventLE := fun a b => by
  unfold eventLE
  infer_instance

instance : IsTotal Event eventLE := by
  constructor
  intro a b
  unfold eventLE
  omega

instance : IsTrans Event eventLE := by
  constructor
  intro a b c hab hbc
  unfold eventLE at hab hbc ⊢
  omega

/-- The marker list built by the loop in `generate_schedule`: for the show at
running index `k`, a start marker `(start, 1, k)` and an end marker `(end, 0, k)`. -/
def eventsFrom : Nat → List Show → List Event
  | _, [] => []
  | k, s :: rest => (s.start, 1, k) :: (s.stop, 0, k) :: eventsFrom (k + 1) rest

/-- All markers of the input shows (Python's `events` list before sorting). -/
def eventsOf (shows : List Show) : List Event := eventsFrom 0 shows

/-- Local state of the sweep loop in `generate_schedule`: the free pool
`available` (a min-heap in the source, modelled as an ascending sorted list),
the fresh-id counter `next_stage`, the insertion-ordered dict `schedule`, and
the dict `show_stage` mapping a show's index to its assigned stage. -/
structure SweepState where
  available : List Nat
  next_stage : Nat
  schedule : List (Nat × List Show)
  show_stage : List (Nat × Nat)
deriving Repr

/-- Models `schedule.setdefault(stage, []).append(sh)` on an insertion-ordered dict. -/
def addShow : List (Nat × List Show) → Nat → Show → List (Nat × List Show)
  | [], stage, sh => [(stage, [sh])]
  | p :: rest, stage, sh =>
    if p.1 = stage then (p.1, p.2 ++ [sh]) :: rest else p :: addShow rest stage sh

/-- Models the dict lookup `show_stage[index]` (`none` is Python's `KeyError`). -/
def lookupStage : List (Nat × Nat) → Nat → Option Nat
  | [], _ => none
  | p :: rest, i => if p.1 = i then some p.2 else lookupStage rest i

/-- One iteration of the sweep loop over a marker `(time, event_type, index)`. -/
def step (shows : List Show) (st : SweepState) (e : Event) : Option SweepState :=
  if e.2.1 = 1 then
    match st.available with
    | s :: rest =>
      some ⟨rest, st.next_stage, addShow st.schedule s (shows.getD e.2.2 dShow),
            (e.2.2, s) :: st.show_stage⟩
    | [] =>
      some ⟨[], st.next_stage + 1,
            addShow st.schedule st.next_stage (shows.getD e.2.2 dShow),
            (e.2.2, st.next_stage) :: st.show_stage⟩
  else
    match lookupStage st.show_stage e.2.2 with
    | some s =>
      some ⟨List.orderedInsert (· ≤ ·) s st.available, st.next_stage,
            st.schedule, st.show_stage⟩
    | none => none

/-- The sweep loop (`for _, event_type, index in events`). -/
def runSweep (shows : List Show) : SweepState → List Event → Option SweepState
  | st, [] => some st
  | st, e :: rest =>
    match step shows st e with
    | some st2 => runSweep shows st2 rest
    | none => none

/-- Initial loop state: empty pool, `next_stage = 1`, empty dicts. -/
def initState : SweepState := ⟨[], 1, [], []⟩

/-- The sorted marker list (`events.sort()`). -/
def sortedEvents (shows : List Show) : List Event :=
  List.insertionSort eventLE (eventsOf shows)

/-- `generate_schedule` from `schedule_generator.py`: sort the markers and sweep. -/
def generate_schedule (shows : List Show) : Option (List (Nat × List Show)) :=
  (runSweep shows initState (sortedEvents shows)).map SweepState.schedule

/-- Delta pairs `(start, +1)` and `(end, -1)`, the input of the independent
max-overlap computation described by the spec (and used by the repo's tests). -/
def deltasOf : List Show → List (Int × Int)
  | [] => []
  | s :: rest => (s.start, 1) :: (s.stop, -1) :: deltasOf rest

/-- Lexicographic order on delta pairs (Python tuple sort on `(time, delta)`). -/
def pairLE (a b : Int × Int) : Prop := a.1 < b.1 ∨ (a.1 = b.1 ∧ a.2 ≤ b.2)

instance : DecidableRel pairLE := fun a b => by
  unfold pairLE
  infer_instance

instance : IsTotal (Int × Int) pairLE := by
  constructor
  intro a b
  unfold pairLE
  omega

instance : IsTrans (Int × Int) pairLE := by
  constructor
  intro a b c hab hbc
  unfold pairLE at hab hbc ⊢
  omega

instance : IsAntisymm (Int × Int) pairLE := by
  constructor
  intro a b hab hba
  obtain ⟨x, y⟩ := a
  obtain ⟨z, w⟩ := b
  unfold pairLE at hab hba
  simp only [Prod.mk.injEq]
  omega

/-- Max overlap computed independently of the allocator: sort the `(time, ±1)`
deltas and take the running maximum of the prefix sums. -/
def max_overlap (shows : List Show) : Int :=
  ((List.insertionSort pairLE (deltasOf shows)).foldl
    (fun p d => (p.1 + d.2, max p.2 (p.1 + d.2))) ((0 : Int), (0 : Int))).2

/-- The name-resolution expression in `print_schedule`: the stored name when
`0 < stage <= len(names)`, otherwise the synthesized fallback label. -/
def stage_label (names : List String) (stage : Nat) : String :=
  if 0 < stage ∧ stage ≤ names.length then names.getD (stage - 1) ""
  else "Stage " ++ toString stage

/-- The `±1` delta carried by a marker. -/
def delta (e : Event) : Int := if e.2.1 = 1 then 1 else -1

/-- Forget a marker's index, keeping `(time, delta)`. -/
def proj (e : Event) : Int × Int := (e.1, delta e)

/-- Running `(current, maximum)` prefix-sum pair over a list of deltas. -/
def runMax : List Int → Int × Int → Int × Int
  | [], p => p
  | d :: rest, p => runMax rest (p.1 + d, max p.2 (p.1 + d))

/-- The canonical start marker of the show at index `i`. -/
def startMarker (shows : List Show) (i : Nat) : Event :=
  ((shows.getD i dShow).start, 1, i)

/-- The canonical end marker of the show at index `i`. -/
def endMarker (shows : List Show) (i : Nat) : Event :=
  ((shows.getD i dShow).stop, 0, i)

/-- End time of the last show of a stage's list (`0` for the empty list). -/
def lastStop (lst : List Show) : Int := (lst.getLast?).elim 0 Show.stop

/-- Whether a marker is a start marker. -/
def isStart (e : Event) : Bool := decide (e.2.1 = 1)

/-- Scenario A from the spec's testable properties. -/
def scenarioA : List Show :=
  [⟨"show_1", 0, 10⟩, ⟨"show_2", 5, 15⟩, ⟨"show_3", 15, 20⟩]

/-- The mapping the allocator returns on Scenario A. -/
def scenarioA_out : List (Nat × List Show) :=
  [(1, [⟨"show_1", 0, 10⟩, ⟨"show_3", 15, 20⟩]), (2, [⟨"show_2", 5, 15⟩])]

/-- Scenario B from the spec's testable properties (boundary-touching shows). -/
def scenarioB : List Show := [⟨"a", 0, 10⟩, ⟨"b", 10, 20⟩, ⟨"c", 10, 30⟩]

/-- The mapping the allocator returns on Scenario B. -/
def scenarioB_out : List (Nat × List Show) :=
  [(1, [⟨"a", 0, 10⟩, ⟨"b", 10, 20⟩]), (2, [⟨"c", 10, 30⟩])]

/-- Pending end markers either already have a recorded stage or their start
marker is still ahead: the condition under which the sweep cannot fail. -/
def PendOk (shows : List Show) (es : List Event) (st : SweepState) : Prop :=
  ∀ i, endMarker shows i ∈ es →
    (lookupStage st.show_stage i).isSome ∨ startMarker shows i ∈ es

/-- The inductive invariant of the sweep loop: `es` is the remaining suffix of
the sorted marker list and `c` the running overlap count of the processed
prefix.  It ties together the free pool, the id counter, both dicts, the
chain property of every stage's list, and the pending markers. -/
structure SweepInv (shows : List Show) (es : List Event) (st : SweepState) (c : Int) : Prop where
  availSorted : st.available.Sorted (fun a b => a ≤ b)
  availBound : ∀ s ∈ st.available, 1 ≤ s ∧ s < st.next_stage
  availNodup : st.available.Nodup
  stageBound : ∀ p ∈ st.show_stage, 1 ≤ p.2 ∧ p.2 < st.next_stage
  nsPos : 1 ≤ st.next_stage
  keysEq : st.schedule.map Prod.fst = List.range' 1 (st.next_stage - 1)
  countEq : (st.available.length : Int) = (st.next_stage : Int) - 1 - c
  schedOK : ∀ p ∈ st.schedule, p.2 ≠ [] ∧
      List.Chain' (fun a b => a.stop ≤ b.start) p.2 ∧ ∀ x ∈ p.2, x.start ≤ x.stop
  availTime : ∀ s ∈ st.available, ∀ lst, (s, lst) ∈ st.schedule →
      ∀ ev ∈ es, lastStop lst ≤ ev.1
  active : ∀ i s, lookupStage st.show_stage i = some s → endMarker shows i ∈ es →
      s ∉ st.available ∧ ∃ lst, (s, lst) ∈ st.schedule ∧
        lst.getLast? = some (shows.getD i dShow)
  activeUniq : ∀ i j si sj, lookupStage st.show_stage i = some si →
      lookupStage st.show_stage j = some sj → endMarker shows i ∈ es →
      endMarker shows j ∈ es → si = sj → i = j
  startFresh : ∀ i, startMarker shows i ∈ es → lookupStage st.show_stage i = none
  startEnd : ∀ i, startMarker shows i ∈ es → endMarker shows i ∈ es
  esSub : ∀ e ∈ es, e ∈ eventsOf shows
  esSorted : es.Pairwise eventLE
  esNodup : es.Nodup
  cover : ((st.schedule.map Prod.snd).flatten).Perm
      (st.show_stage.map (fun p => shows.getD p.1 dShow))
  startsAcct : ((st.show_stage.map Prod.fst) ++
      ((es.filter isStart).map (fun e => e.2.2))).Perm (List.range shows.length)


lemma mem_eventsFrom {l : List Show} {k : Nat} {e : Event} :
    e ∈ eventsFrom k l ↔ ∃ j, j < l.length ∧ e.2.2 = k + j ∧
      (e = ((l.getD j dShow).start, 1, k + j) ∨ e = ((l.getD j dShow).stop, 0, k + j)) := by
  induction l generalizing k with
  | nil => simp [eventsFrom]
  | cons s rest ih =>
    simp only [eventsFrom, List.mem_cons, ih, List.length_cons]
    constructor
    · rintro (rfl | rfl | ⟨j, hj, hidx, hsh⟩)
      · exact ⟨0, by omega, by simp, by simp⟩
      · exact ⟨0, by omega, by simp, by simp⟩
      · refine ⟨j + 1, by omega, by omega, ?_⟩
        have : (s :: rest).getD (j + 1) dShow = rest.getD j dShow := by simp [List.getD]
        rw [this]
        have harith : k + (j + 1) = k + 1 + j := by omega
        rw [harith]
        exact hsh
    · rintro ⟨j, hj, hidx, hsh⟩
      match j with
      | 0 =>
        simp only [List.getD_cons_zero, Nat.add_zero] at hsh
        rcases hsh with rfl | rfl
        · exact Or.inl rfl
        · exact Or.inr (Or.inl rfl)
      | j + 1 =>
        refine Or.inr (Or.inr ⟨j, by omega, by omega, ?_⟩)
        have : (s :: rest).getD (j + 1) dShow = rest.getD j dShow := by simp [List.getD]
        rw [this] at hsh
        have harith : k + (j + 1) = k + 1 + j := by omega
        rw [harith] at hsh
        exact hsh

lemma mem_eventsOf {shows : List Show} {e : Event} :
    e ∈ eventsOf shows ↔ ∃ j, j < shows.length ∧ e.2.2 = j ∧
      (e = startMarker shows j ∨ e = endMarker shows j) := by
  unfold eventsOf startMarker endMarker
  rw [mem_eventsFrom]
  simp

lemma startMarker_mem_eventsOf {shows : List Show} {i : Nat} (h : i < shows.length) :
    startMarker shows i ∈ eventsOf shows :=
  mem_eventsOf.2 ⟨i, h, rfl, Or.inl rfl⟩

lemma endMarker_mem_eventsOf {shows : List Show} {i : Nat} (h : i < shows.length) :
    endMarker shows i ∈ eventsOf shows :=
  mem_eventsOf.2 ⟨i, h, rfl, Or.inr rfl⟩

lemma eventsFrom_idx_ge {l : List Show} {k : Nat} {e : Event} (h : e ∈ eventsFrom k l) :
    k ≤ e.2.2 := by
  rcases mem_eventsFrom.1 h with ⟨j, _, hidx, _⟩
  omega

lemma eventsFrom_nodup : ∀ (l : List Show) (k : Nat), (eventsFrom k l).Nodup := by
  intro l
  induction l with
  | nil => intro k; simp [eventsFrom]
  | cons s rest ih =>
    intro k
    simp only [eventsFrom, List.nodup_cons]
    refine ⟨?_, ?_, ih (k + 1)⟩
    · simp only [List.mem_cons]
      rintro (h | h)
      · exact absurd (congrArg (fun e => e.2.1) h) (by simp)
      · exact absurd (eventsFrom_idx_ge h) (by simp)
    · intro h
      exact absurd (eventsFrom_idx_ge h) (by simp)

lemma eventsFrom_filter_starts : ∀ (l : List Show) (k : Nat),
    ((eventsFrom k l).filter isStart).map (fun e => e.2.2) = List.range' k l.length := by
  intro l
  induction l with
  | nil => intro k; simp [eventsFrom]
  | cons s rest ih =>
    intro k
    simp only [eventsFrom, List.length_cons, List.range'_succ, List.filter_cons]
    have h1 : isStart ((s.start, 1, k) : Event) = true := by simp [isStart]
    have h0 : isStart ((s.stop, 0, k) : Event) = false := by simp [isStart]
    simp [h1, h0, ih (k + 1)]

lemma eventsFrom_map_proj : ∀ (l : List Show) (k : Nat),
    (eventsFrom k l).map proj = deltasOf l := by
  intro l
  induction l with
  | nil => intro k; simp [eventsFrom, deltasOf]
  | cons s rest ih =>
    intro k
    simp [eventsFrom, deltasOf, proj, delta, ih (k + 1)]

lemma addShow_map_fst_mem {sched : List (Nat × List Show)} {stage : Nat} {sh : Show}
    (h : stage ∈ sched.map Prod.fst) :
    (addShow sched stage sh).map Prod.fst = sched.map Prod.fst := by
  induction sched with
  | nil => simp at h
  | cons q rest ih =>
    by_cases hq : q.1 = stage
    · simp [addShow, hq]
    · simp only [List.map_cons, List.mem_cons] at h
      rcases h with h | h
      · exact absurd h.symm hq
      · simp [addShow, hq, ih h]

lemma addShow_map_fst_notmem {sched : List (Nat × List Show)} {stage : Nat} {sh : Show}
    (h : stage ∉ sched.map Prod.fst) :
    (addShow sched stage sh).map Prod.fst = sched.map Prod.fst ++ [stage] := by
  induction sched with
  | nil => simp [addShow]
  | cons q rest ih =>
    simp only [List.map_cons, List.mem_cons] at h
    push_neg at h
    simp [addShow, Ne.symm h.1, ih h.2]

lemma mem_addShow_other {sched : List (Nat × List Show)} {stage : Nat} {sh : Show}
    {p : Nat × List Show} (h : p ∈ addShow sched stage sh) (hne : p.1 ≠ stage) :
    p ∈ sched := by
  induction sched with
  | nil =>
    simp only [addShow, List.mem_singleton] at h
    exact absurd (congrArg Prod.fst h) hne
  | cons q rest ih =>
    by_cases hq : q.1 = stage
    · simp only [addShow, if_pos hq, List.mem_cons] at h
      rcases h with rfl | h
      · exact absurd hq hne
      · exact List.mem_cons_of_mem _ h
    · simp only [addShow, if_neg hq, List.mem_cons] at h
      rcases h with rfl | h
      · exact List.mem_cons_self _ _
      · exact List.mem_cons_of_mem _ (ih h)

lemma mem_addShow_other2 {sched : List (Nat × List Show)} {stage : Nat} {sh : Show}
    {p : Nat × List Show} (h : p ∈ sched) (hne : p.1 ≠ stage) :
    p ∈ addShow sched stage sh := by
  induction sched with
  | nil => simp at h
  | cons q rest ih =>
    rcases List.mem_cons.1 h with rfl | h
    · by_cases hq : p.1 = stage
      · exact absurd hq hne
      · simp [addShow, hq]
    · by_cases hq : q.1 = stage
      · simp only [addShow, if_pos hq]
        exact List.mem_cons_of_mem _ h
      · simp only [addShow, if_neg hq]
        exact List.mem_cons_of_mem _ (ih h)

lemma mem_addShow_self {sched : List (Nat × List Show)} {stage : Nat} {sh : Show}
    {lst : List Show} (hnd : (sched.map Prod.fst).Nodup) (h : (stage, lst) ∈ sched) :
    (stage, lst ++ [sh]) ∈ addShow sched stage sh := by
  induction sched with
  | nil => simp at h
  | cons q rest ih =>
    simp only [List.map_cons, List.nodup_cons] at hnd
    rcases List.mem_cons.1 h with rfl | h
    · simp [addShow]
    · have hq : q.1 ≠ stage := by
        intro hcon
        exact hnd.1 (hcon ▸ List.mem_map_of_mem Prod.fst h)
      simp only [addShow, if_neg hq]
      exact List.mem_cons_of_mem _ (ih hnd.2 h)

lemma mem_addShow_new {sched : List (Nat × List Show)} {stage : Nat} {sh : Show}
    (h : stage ∉ sched.map Prod.fst) :
    (stage, [sh]) ∈ addShow sched stage sh := by
  induction sched with
  | nil => simp [addShow]
  | cons q rest ih =>
    simp only [List.map_cons, List.mem_cons] at h
    push_neg at h
    simp only [addShow, if_neg (Ne.symm h.1)]
    exact List.mem_cons_of_mem _ (ih h.2)

lemma mem_addShow_elim {sched : List (Nat × List Show)} {stage : Nat} {sh : Show}
    {p : Nat × List Show} (hnd : (sched.map Prod.fst).Nodup)
    (h : p ∈ addShow sched stage sh) :
    (p ∈ sched ∧ p.1 ≠ stage) ∨
    (∃ lst, (stage, lst) ∈ sched ∧ p = (stage, lst ++ [sh])) ∨
    (stage ∉ sched.map Prod.fst ∧ p = (stage, [sh])) := by
  induction sched with
  | nil =>
    simp only [addShow, List.mem_singleton] at h
    exact Or.inr (Or.inr ⟨by simp, h⟩)
  | cons q rest ih =>
    simp only [List.map_cons, List.nodup_cons] at hnd
    by_cases hq : q.1 = stage
    · simp only [addShow, if_pos hq, List.mem_cons] at h
      rcases h with rfl | h
      · exact Or.inr (Or.inl ⟨q.2, by rw [← hq]; exact List.mem_cons_self _ _, by rw [hq]⟩)
      · have hne : p.1 ≠ stage := by
          intro hcon
          exact hnd.1 (hq ▸ hcon ▸ List.mem_map_of_mem Prod.fst h)
        exact Or.inl ⟨List.mem_cons_of_mem _ h, hne⟩
    · simp only [addShow, if_neg hq, List.mem_cons] at h
      rcases h with rfl | h
      · exact Or.inl ⟨List.mem_cons_self _ _, hq⟩
      · rcases ih hnd.2 h with ⟨hm, hne⟩ | ⟨lst, hm, rfl⟩ | ⟨hnm, rfl⟩
        · exact Or.inl ⟨List.mem_cons_of_mem _ hm, hne⟩
        · exact Or.inr (Or.inl ⟨lst, List.mem_cons_of_mem _ hm, rfl⟩)
        · refine Or.inr (Or.inr ⟨?_, rfl⟩)
          simp only [List.map_cons, List.mem_cons]
          push_neg
          exact ⟨Ne.symm hq, hnm⟩

lemma addShow_flatten (sched : List (Nat × List Show)) (stage : Nat) (sh : Show) :
    ((addShow sched stage sh).map Prod.snd).flatten.Perm
      (sh :: (sched.map Prod.snd).flatten) := by
  induction sched with
  | nil => simp [addShow]
  | cons q rest ih =>
    by_cases hq : q.1 = stage
    · simp only [addShow, if_pos hq, List.map_cons, List.flatten_cons]
      rw [List.append_assoc]
      exact List.perm_middle
    · simp only [addShow, if_neg hq, List.map_cons, List.flatten_cons]
      exact (ih.append_left q.2).trans List.perm_middle

lemma keys_nodup_entry_unique {sched : List (Nat × List Show)} {s : Nat}
    {l1 l2 : List Show} (hnd : (sched.map Prod.fst).Nodup)
    (h1 : (s, l1) ∈ sched) (h2 : (s, l2) ∈ sched) : l1 = l2 := by
  induction sched with
  | nil => simp at h1
  | cons q rest ih =>
    simp only [List.map_cons, List.nodup_cons] at hnd
    rcases List.mem_cons.1 h1 with heq1 | hm1
    · rcases List.mem_cons.1 h2 with heq2 | hm2
      · rw [← heq1] at heq2
        exact (congrArg Prod.snd heq2).symm
      · rw [← heq1] at hnd
        exact absurd (List.mem_map_of_mem Prod.fst hm2) hnd.1
    · rcases List.mem_cons.1 h2 with heq2 | hm2
      · rw [← heq2] at hnd
        exact absurd (List.mem_map_of_mem Prod.fst hm1) hnd.1
      · exact ih hnd.2 hm1 hm2

lemma lookupStage_cons_self {ss : List (Nat × Nat)} {i s : Nat} :
    lookupStage ((i, s) :: ss) i = some s := by simp [lookupStage]

lemma lookupStage_cons_ne {ss : List (Nat × Nat)} {i j s : Nat} (h : j ≠ i) :
    lookupStage ((j, s) :: ss) i = lookupStage ss i := by simp [lookupStage, h]

lemma lookupStage_mem {ss : List (Nat × Nat)} {i s : Nat}
    (h : lookupStage ss i = some s) : (i, s) ∈ ss := by
  induction ss with
  | nil => simp [lookupStage] at h
  | cons p rest ih =>
    obtain ⟨p1, p2⟩ := p
    by_cases hp : p1 = i
    · simp only [lookupStage, if_pos hp] at h
      cases hp
      cases Option.some.inj h
      exact List.mem_cons_self _ _
    · simp only [lookupStage, if_neg hp] at h
      exact List.mem_cons_of_mem _ (ih h)

lemma lookupStage_isSome_cons {ss : List (Nat × Nat)} {i j t : Nat}
    (h : (lookupStage ss i).isSome) : (lookupStage ((j, t) :: ss) i).isSome := by
  by_cases hj : j = i
  · simp [lookupStage, hj]
  · simpa [lookupStage, hj] using h

lemma sorted_sortedEvents (shows : List Show) : (sortedEvents shows).Pairwise eventLE :=
  List.sorted_insertionSort eventLE (eventsOf shows)

lemma perm_sortedEvents (shows : List Show) : (sortedEvents shows).Perm (eventsOf shows) :=
  List.perm_insertionSort eventLE (eventsOf shows)

lemma nodup_sortedEvents (shows : List Show) : (sortedEvents shows).Nodup :=
  ((perm_sortedEvents shows).nodup_iff).2 (eventsFrom_nodup shows 0)

lemma mem_sortedEvents {shows : List Show} {e : Event} :
    e ∈ sortedEvents shows ↔ e ∈ eventsOf shows :=
  (perm_sortedEvents shows).mem_iff

lemma eventType_le_one {shows : List Show} {e : Event} (h : e ∈ eventsOf shows) :
    e.2.1 ≤ 1 := by
  rcases mem_eventsOf.1 h with ⟨j, hj, hidx, rfl | rfl⟩ <;> simp [startMarker, endMarker]

lemma proj_mono {a b : Event} (ha : a.2.1 ≤ 1) (hb : b.2.1 ≤ 1) (h : eventLE a b) :
    pairLE (proj a) (proj b) := by
  unfold eventLE at h
  unfold pairLE proj delta
  simp only
  split_ifs <;> omega

lemma sortedEvents_map_proj (shows : List Show) :
    (sortedEvents shows).map proj = List.insertionSort pairLE (deltasOf shows) := by
  apply List.eq_of_perm_of_sorted (r := pairLE)
  · have h1 : ((sortedEvents shows).map proj).Perm (deltasOf shows) := by
      have h := (perm_sortedEvents shows).map proj
      rwa [eventsOf, eventsFrom_map_proj] at h
    exact h1.trans (List.perm_insertionSort pairLE (deltasOf shows)).symm
  · rw [List.Sorted, List.pairwise_map]
    exact List.Pairwise.imp_of_mem
      (fun ha hb h => proj_mono (eventType_le_one (mem_sortedEvents.1 ha))
        (eventType_le_one (mem_sortedEvents.1 hb)) h)
      (sorted_sortedEvents shows)
  · exact List.sorted_insertionSort pairLE (deltasOf shows)

lemma foldl_pairs_runMax : ∀ (l : List (Int × Int)) (p : Int × Int),
    l.foldl (fun p d => (p.1 + d.2, max p.2 (p.1 + d.2))) p = runMax (l.map Prod.snd) p := by
  intro l
  induction l with
  | nil => intro p; rfl
  | cons d rest ih =>
    intro p
    simp only [List.foldl_cons, List.map_cons, runMax]
    exact ih _

lemma max_overlap_runMax (shows : List Show) :
    max_overlap shows = (runMax ((sortedEvents shows).map delta) ((0 : Int), (0 : Int))).2 := by
  unfold max_overlap
  rw [foldl_pairs_runMax, ← sortedEvents_map_proj, List.map_map]
  have h : (Prod.snd ∘ proj) = delta := funext (fun e => rfl)
  rw [h]

lemma run_total (shows : List Show) (hwf : ∀ s ∈ shows, s.start < s.stop) :
    ∀ (es : List Event) (st : SweepState),
      (∀ e ∈ es, e ∈ eventsOf shows) →
      es.Pairwise eventLE →
      PendOk shows es st →
      ∃ stF, runSweep shows st es = some stF := by
  intro es
  induction es with
  | nil => exact fun st _ _ _ => ⟨st, rfl⟩
  | cons e rest ih =>
    intro st hsub hsort hpend
    have he : e ∈ eventsOf shows := hsub e (List.mem_cons_self _ _)
    rcases mem_eventsOf.1 he with ⟨j, hj, hidx, hcase⟩
    have hsub2 : ∀ x ∈ rest, x ∈ eventsOf shows :=
      fun x hx => hsub x (List.mem_cons_of_mem _ hx)
    have hsort2 : rest.Pairwise eventLE := (List.pairwise_cons.1 hsort).2
    rcases hcase with rfl | rfl
    · -- start marker
      cases hav : st.available with
      | cons s pool =>
        have hstep : step shows st (startMarker shows j) = some
            ⟨pool, st.next_stage, addShow st.schedule s (shows.getD j dShow),
             (j, s) :: st.show_stage⟩ := by
          simp [step, startMarker, hav]
        have hpend2 : PendOk shows rest ⟨pool, st.next_stage,
            addShow st.schedule s (shows.getD j dShow), (j, s) :: st.show_stage⟩ := by
          intro i hi
          rcases hpend i (List.mem_cons_of_mem _ hi) with hsome | hstart
          · exact Or.inl (lookupStage_isSome_cons hsome)
          · rcases List.mem_cons.1 hstart with heq | hmem
            · have hij : i = j := congrArg (fun x : Event => x.2.2) heq
              subst hij
              exact Or.inl (by simp [lookupStage_cons_self])
            · exact Or.inr hmem
        obtain ⟨stF, hF⟩ := ih ⟨pool, st.next_stage,
            addShow st.schedule s (shows.getD j dShow), (j, s) :: st.show_stage⟩
            hsub2 hsort2 hpend2
        exact ⟨stF, by simp only [runSweep, hstep]; exact hF⟩
      | nil =>
        have hstep : step shows st (startMarker shows j) = some
            ⟨[], st.next_stage + 1, addShow st.schedule st.next_stage (shows.getD j dShow),
             (j, st.next_stage) :: st.show_stage⟩ := by
          simp [step, startMarker, hav]
        have hpend2 : PendOk shows rest ⟨[], st.next_stage + 1,
            addShow st.schedule st.next_stage (shows.getD j dShow),
            (j, st.next_stage) :: st.show_stage⟩ := by
          intro i hi
          rcases hpend i (List.mem_cons_of_mem _ hi) with hsome | hstart
          · exact Or.inl (lookupStage_isSome_cons hsome)
          · rcases List.mem_cons.1 hstart with heq | hmem
            · have hij : i = j := congrArg (fun x : Event => x.2.2) heq
              subst hij
              exact Or.inl (by simp [lookupStage_cons_self])
            · exact Or.inr hmem
        obtain ⟨stF, hF⟩ := ih ⟨[], st.next_stage + 1,
            addShow st.schedule st.next_stage (shows.getD j dShow),
            (j, st.next_stage) :: st.show_stage⟩ hsub2 hsort2 hpend2
        exact ⟨stF, by simp only [runSweep, hstep]; exact hF⟩
    · -- end marker
      have hsome : (lookupStage st.show_stage j).isSome := by
        rcases hpend j (List.mem_cons_self _ _) with hsome | hstart
        · exact hsome
        · exfalso
          rcases List.mem_cons.1 hstart with heq | hmem
          · exact absurd (congrArg (fun x : Event => x.2.1) heq) (by simp [startMarker, endMarker])
          · have hrel := (List.pairwise_cons.1 hsort).1 _ hmem
            have hwfj : (shows.getD j dShow).start < (shows.getD j dShow).stop := by
              have hmem2 : shows.getD j dShow ∈ shows := by
                rw [List.getD_eq_getElem shows dShow hj]
                exact List.getElem_mem hj
              exact hwf _ hmem2
            unfold eventLE startMarker endMarker at hrel
            simp only at hrel
            omega
      obtain ⟨s, hs⟩ := Option.isSome_iff_exists.1 hsome
      have hstep : step shows st (endMarker shows j) = some
          ⟨List.orderedInsert (· ≤ ·) s st.available, st.next_stage,
           st.schedule, st.show_stage⟩ := by
        simp [step, endMarker, hs]
      have hpend2 : PendOk shows rest ⟨List.orderedInsert (· ≤ ·) s st.available,
          st.next_stage, st.schedule, st.show_stage⟩ := by
        intro i hi
        rcases hpend i (List.mem_cons_of_mem _ hi) with hsome2 | hstart
        · exact Or.inl hsome2
        · rcases List.mem_cons.1 hstart with heq | hmem
          · exact absurd (congrArg (fun x : Event => x.2.1) heq)
              (by simp [startMarker, endMarker])
          · exact Or.inr hmem
      obtain ⟨stF, hF⟩ := ih ⟨List.orderedInsert (· ≤ ·) s st.available, st.next_stage,
          st.schedule, st.show_stage⟩ hsub2 hsort2 hpend2
      exact ⟨stF, by simp only [runSweep, hstep]; exact hF⟩

lemma generate_schedule_total (shows : List Show)
    (hwf : ∀ s ∈ shows, s.start < s.stop) :
    ∃ m, generate_schedule shows = some m := by
  obtain ⟨stF, hF⟩ := run_total shows hwf (sortedEvents shows) initState
    (fun e he => mem_sortedEvents.1 he)
    (sorted_sortedEvents shows)
    (fun i hi => Or.inr (by
      rcases mem_eventsOf.1 (mem_sortedEvents.1 hi) with ⟨j, hj, hidx, hcase⟩
      rcases hcase with heq | heq
      · exact absurd (congrArg (fun x : Event => x.2.1) heq) (by simp [startMarker, endMarker])
      · have hij : i = j := congrArg (fun x : Event => x.2.2) heq
        subst hij
        exact mem_sortedEvents.2 (startMarker_mem_eventsOf hj)))
  exact ⟨stF.schedule, by unfold generate_schedule; rw [hF]; rfl⟩

lemma eventLE_fst {a b : Event} (h : eventLE a b) : a.1 ≤ b.1 := by
  unfold eventLE at h
  omega

lemma start_ne_end {shows shows2 : List Show} {i i2 : Nat} :
    startMarker shows i ≠ endMarker shows2 i2 := by
  simp [startMarker, endMarker]

lemma lastStop_eq {lst : List Show} {x : Show} (h : lst.getLast? = some x) :
    lastStop lst = x.stop := by
  simp [lastStop, h]

lemma mem_keys_exists {sched : List (Nat × List Show)} {s : Nat}
    (h : s ∈ sched.map Prod.fst) : ∃ lst, (s, lst) ∈ sched := by
  rcases List.mem_map.1 h with ⟨p, hp, rfl⟩
  exact ⟨p.2, hp⟩

lemma startMarker_idx_lt {shows : List Show} {i : Nat}
    (h : startMarker shows i ∈ eventsOf shows) : i < shows.length := by
  rcases mem_eventsOf.1 h with ⟨j, hj, hidx, _⟩
  have hij : i = j := hidx
  exact hij ▸ hj

lemma delta_start {shows : List Show} {j : Nat} : delta (startMarker shows j) = 1 := by
  simp [delta, startMarker]

lemma delta_end {shows : List Show} {j : Nat} : delta (endMarker shows j) = -1 := by
  simp [delta, endMarker]

lemma wf_of_getD_mem {shows : List Show} {j : Nat} (hj : j < shows.length)
    (hwf : ∀ s ∈ shows, s.start < s.stop) :
    (shows.getD j dShow).start < (shows.getD j dShow).stop := by
  have hmem : shows.getD j dShow ∈ shows := by
    rw [List.getD_eq_getElem shows dShow hj]
    exact List.getElem_mem hj
  exact hwf _ hmem

lemma schedOK_addShow {sched : List (Nat × List Show)} {stage : Nat} {sh : Show}
    (keysNodup : (sched.map Prod.fst).Nodup)
    (hOK : ∀ p ∈ sched, p.2 ≠ [] ∧ List.Chain' (fun a b => a.stop ≤ b.start) p.2 ∧
      ∀ x ∈ p.2, x.start ≤ x.stop)
    (hwfsh : sh.start ≤ sh.stop)
    (hlast : ∀ lst, (stage, lst) ∈ sched → lastStop lst ≤ sh.start) :
    ∀ p ∈ addShow sched stage sh, p.2 ≠ [] ∧
      List.Chain' (fun a b => a.stop ≤ b.start) p.2 ∧ ∀ x ∈ p.2, x.start ≤ x.stop := by
  intro p hp
  rcases mem_addShow_elim keysNodup hp with ⟨hm, _⟩ | ⟨lst, hm, rfl⟩ | ⟨_, rfl⟩
  · exact hOK p hm
  · obtain ⟨hne, hch, hwf⟩ := hOK _ hm
    refine ⟨by simp, ?_, ?_⟩
    · refine List.Chain'.append hch (List.chain'_singleton sh) ?_
      intro x hx y hy
      simp only [List.head?_cons, Option.mem_def, Option.some.injEq] at hy
      subst hy
      have hls : lastStop lst = x.stop := lastStop_eq hx
      have := hlast lst hm
      omega
    · intro x hx
      rcases List.mem_append.1 hx with hx | hx
      · exact hwf x hx
      · rcases List.mem_singleton.1 hx with rfl
        exact hwfsh
  · exact ⟨by simp, List.chain'_singleton sh, by
      intro x hx
      rcases List.mem_singleton.1 hx with rfl
      exact hwfsh⟩

lemma inv_step_start {shows : List Show} {es : List Event} {j : Nat} {st st2 : SweepState}
    {c : Int} (hInv : SweepInv shows (startMarker shows j :: es) st c)
    (hstep : step shows st (startMarker shows j) = some st2) :
    SweepInv shows es st2 (c + 1) ∧
      (st2.next_stage : Int) - 1 = max ((st.next_stage : Int) - 1) (c + 1) := by
  obtain ⟨hAS, hAB, hAN, hSB, hNS, hKE, hCE, hOK, hAT, hACT, hAU, hSF, hSE, hSub, hSort,
    hND, hCov, hAcct⟩ := hInv
  have keysNodup : (st.schedule.map Prod.fst).Nodup := by
    rw [hKE]
    exact List.nodup_range' _ _
  have hEndPend : endMarker shows j ∈ es := by
    rcases List.mem_cons.1 (hSE j (List.mem_cons_self _ _)) with heq | hm
    · exact absurd heq.symm start_ne_end
    · exact hm
  have hwfj : (shows.getD j dShow).start < (shows.getD j dShow).stop := by
    have hrel := (List.pairwise_cons.1 hSort).1 _ hEndPend
    unfold eventLE startMarker endMarker at hrel
    simp only at hrel
    omega
  have hFil : ((startMarker shows j :: es).filter isStart) =
      startMarker shows j :: es.filter isStart :=
    List.filter_cons_of_pos (by simp [isStart, startMarker])
  rw [hFil] at hAcct
  simp only [List.map_cons, startMarker] at hAcct
  cases hav : st.available with
  | cons s pool =>
    have hstepEq : step shows st (startMarker shows j) = some
        ⟨pool, st.next_stage, addShow st.schedule s (shows.getD j dShow),
         (j, s) :: st.show_stage⟩ := by
      simp [step, startMarker, hav]
    rw [hstepEq] at hstep
    obtain rfl := (Option.some.inj hstep).symm
    have hsmem : s ∈ st.available := by
      rw [hav]
      exact List.mem_cons_self _ _
    have hsb := hAB s hsmem
    have hsnp : s ∉ pool := by
      have h := hAN
      rw [hav] at h
      exact (List.nodup_cons.1 h).1
    have hskey : s ∈ st.schedule.map Prod.fst := by
      rw [hKE, List.mem_range'_1]
      omega
    have hlen : st.available.length = pool.length + 1 := by
      rw [hav]
      rfl
    constructor
    · refine ⟨?_, ?_, ?_, ?_, ?_, ?_, ?_, ?_, ?_, ?_, ?_, ?_, ?_, ?_, ?_, ?_, ?_, ?_⟩
      · -- availSorted
        have h := hAS
        rw [hav] at h
        exact h.of_cons
      · -- availBound
        intro x hx
        refine hAB x ?_
        rw [hav]
        exact List.mem_cons_of_mem _ hx
      · -- availNodup
        have h := hAN
        rw [hav] at h
        exact (List.nodup_cons.1 h).2
      · -- stageBound
        intro p hp
        rcases List.mem_cons.1 hp with rfl | hp
        · exact ⟨hsb.1, hsb.2⟩
        · exact hSB p hp
      · -- nsPos
        exact hNS
      · -- keysEq
        rw [addShow_map_fst_mem hskey]
        exact hKE
      · -- countEq
        show (pool.length : Int) = (st.next_stage : Int) - 1 - (c + 1)
        omega
      · -- schedOK
        refine schedOK_addShow keysNodup hOK (le_of_lt hwfj) ?_
        intro lst hm
        exact hAT s hsmem lst hm (startMarker shows j) (List.mem_cons_self _ _)
      · -- availTime
        intro x hx lst hm ev hev
        have hxav : x ∈ st.available := by
          rw [hav]
          exact List.mem_cons_of_mem _ hx
        have hxs : x ≠ s := fun heq => hsnp (heq ▸ hx)
        have hm2 : (x, lst) ∈ st.schedule := mem_addShow_other hm hxs
        exact hAT x hxav lst hm2 ev (List.mem_cons_of_mem _ hev)
      · -- active
        intro i s2 hlk hendi
        by_cases hij : i = j
        · subst hij
          rw [lookupStage_cons_self] at hlk
          obtain rfl := Option.some.inj hlk
          refine ⟨hsnp, ?_⟩
          obtain ⟨lst0, hlst0⟩ := mem_keys_exists hskey
          exact ⟨lst0 ++ [shows.getD i dShow], mem_addShow_self keysNodup hlst0,
            List.getLast?_concat _⟩
        · rw [lookupStage_cons_ne (Ne.symm hij)] at hlk
          obtain ⟨hnot, lst2, hm2, hl2⟩ := hACT i s2 hlk (List.mem_cons_of_mem _ hendi)
          have hs2ne : s2 ≠ s := fun heq => hnot (heq ▸ hsmem)
          refine ⟨?_, lst2, mem_addShow_other2 hm2 hs2ne, hl2⟩
          intro hmem
          refine hnot ?_
          rw [hav]
          exact List.mem_cons_of_mem _ hmem
      · -- activeUniq
        intro i1 i2 s1 s2 h1 h2 he1 he2 heq
        by_cases hi1 : i1 = j <;> by_cases hi2 : i2 = j
        · rw [hi1, hi2]
        · subst hi1
          rw [lookupStage_cons_self] at h1
          obtain rfl := Option.some.inj h1
          rw [lookupStage_cons_ne (Ne.symm hi2)] at h2
          obtain ⟨hnot, _, _, _⟩ := hACT i2 s2 h2 (List.mem_cons_of_mem _ he2)
          exact absurd (heq ▸ hsmem) hnot
        · subst hi2
          rw [lookupStage_cons_self] at h2
          obtain rfl := Option.some.inj h2
          rw [lookupStage_cons_ne (Ne.symm hi1)] at h1
          obtain ⟨hnot, _, _, _⟩ := hACT i1 s1 h1 (List.mem_cons_of_mem _ he1)
          refine absurd ?_ hnot
          rw [heq]
          exact hsmem
        · rw [lookupStage_cons_ne (Ne.symm hi1)] at h1
          rw [lookupStage_cons_ne (Ne.symm hi2)] at h2
          exact hAU i1 i2 s1 s2 h1 h2 (List.mem_cons_of_mem _ he1)
            (List.mem_cons_of_mem _ he2) heq
      · -- startFresh
        intro i hi
        have hij : i ≠ j := by
          rintro rfl
          exact (List.nodup_cons.1 hND).1 hi
        rw [lookupStage_cons_ne (Ne.symm hij)]
        exact hSF i (List.mem_cons_of_mem _ hi)
      · -- startEnd
        intro i hi
        rcases List.mem_cons.1 (hSE i (List.mem_cons_of_mem _ hi)) with heq | hm
        · exact absurd heq.symm start_ne_end
        · exact hm
      · -- esSub
        exact fun x hx => hSub x (List.mem_cons_of_mem _ hx)
      · -- esSorted
        exact (List.pairwise_cons.1 hSort).2
      · -- esNodup
        exact (List.nodup_cons.1 hND).2
      · -- cover
        exact (addShow_flatten _ _ _).trans (hCov.cons _)
      · -- startsAcct
        simp only [List.map_cons, List.cons_append]
        exact List.perm_middle.symm.trans hAcct
    · -- numeric
      have hle : c + 1 ≤ (st.next_stage : Int) - 1 := by omega
      show (st.next_stage : Int) - 1 = max ((st.next_stage : Int) - 1) (c + 1)
      rw [max_eq_left hle]
  | nil =>
    have hstepEq : step shows st (startMarker shows j) = some
        ⟨[], st.next_stage + 1, addShow st.schedule st.next_stage (shows.getD j dShow),
         (j, st.next_stage) :: st.show_stage⟩ := by
      simp [step, startMarker, hav]
    rw [hstepEq] at hstep
    obtain rfl := (Option.some.inj hstep).symm
    have hnotkey : st.next_stage ∉ st.schedule.map Prod.fst := by
      rw [hKE, List.mem_range'_1]
      omega
    have hlen : st.available.length = 0 := by
      rw [hav]
      rfl
    constructor
    · refine ⟨?_, ?_, ?_, ?_, ?_, ?_, ?_, ?_, ?_, ?_, ?_, ?_, ?_, ?_, ?_, ?_, ?_, ?_⟩
      · -- availSorted
        exact List.sorted_nil
      · -- availBound
        intro x hx
        exact absurd hx (List.not_mem_nil x)
      · -- availNodup
        exact List.nodup_nil
      · -- stageBound
        intro p hp
        rcases List.mem_cons.1 hp with rfl | hp
        · exact ⟨hNS, Nat.lt_succ_self _⟩
        · obtain ⟨h1, h2⟩ := hSB p hp
          exact ⟨h1, Nat.lt_succ_of_lt h2⟩
      · -- nsPos
        exact Nat.le_succ_of_le hNS
      · -- keysEq
        rw [addShow_map_fst_notmem hnotkey, hKE]
        have h1 : st.next_stage + 1 - 1 = (st.next_stage - 1) + 1 := by omega
        rw [h1, List.range'_concat]
        have h2 : 1 + 1 * (st.next_stage - 1) = st.next_stage := by omega
        rw [h2]
      · -- countEq
        show ((List.length ([] : List Nat)) : Int) = ((st.next_stage + 1 : Nat) : Int) - 1 - (c + 1)
        simp only [List.length_nil]
        push_cast
        omega
      · -- schedOK
        refine schedOK_addShow keysNodup hOK (le_of_lt hwfj) ?_
        intro lst hm
        exact absurd (List.mem_map_of_mem Prod.fst hm) hnotkey
      · -- availTime
        intro x hx
        exact absurd hx (List.not_mem_nil x)
      · -- active
        intro i s2 hlk hendi
        by_cases hij : i = j
        · subst hij
          rw [lookupStage_cons_self] at hlk
          obtain rfl := Option.some.inj hlk
          exact ⟨List.not_mem_nil _, [shows.getD i dShow], mem_addShow_new hnotkey, rfl⟩
        · rw [lookupStage_cons_ne (Ne.symm hij)] at hlk
          obtain ⟨hnot, lst2, hm2, hl2⟩ := hACT i s2 hlk (List.mem_cons_of_mem _ hendi)
          have hs2lt : s2 < st.next_stage := (hSB _ (lookupStage_mem hlk)).2
          have hs2ne : s2 ≠ st.next_stage := Nat.ne_of_lt hs2lt
          exact ⟨List.not_mem_nil _, lst2, mem_addShow_other2 hm2 hs2ne, hl2⟩
      · -- activeUniq
        intro i1 i2 s1 s2 h1 h2 he1 he2 heq
        by_cases hi1 : i1 = j <;> by_cases hi2 : i2 = j
        · rw [hi1, hi2]
        · subst hi1
          rw [lookupStage_cons_self] at h1
          obtain rfl := Option.some.inj h1
          rw [lookupStage_cons_ne (Ne.symm hi2)] at h2
          have hs2lt : s2 < st.next_stage := (hSB _ (lookupStage_mem h2)).2
          omega
        · subst hi2
          rw [lookupStage_cons_self] at h2
          obtain rfl := Option.some.inj h2
          rw [lookupStage_cons_ne (Ne.symm hi1)] at h1
          have hs1lt : s1 < st.next_stage := (hSB _ (lookupStage_mem h1)).2
          omega
        · rw [lookupStage_cons_ne (Ne.symm hi1)] at h1
          rw [lookupStage_cons_ne (Ne.symm hi2)] at h2
          exact hAU i1 i2 s1 s2 h1 h2 (List.mem_cons_of_mem _ he1)
            (List.mem_cons_of_mem _ he2) heq
      · -- startFresh
        intro i hi
        have hij : i ≠ j := by
          rintro rfl
          exact (List.nodup_cons.1 hND).1 hi
        rw [lookupStage_cons_ne (Ne.symm hij)]
        exact hSF i (List.mem_cons_of_mem _ hi)
      · -- startEnd
        intro i hi
        rcases List.mem_cons.1 (hSE i (List.mem_cons_of_mem _ hi)) with heq | hm
        · exact absurd heq.symm start_ne_end
        · exact hm
      · -- esSub
        exact fun x hx => hSub x (List.mem_cons_of_mem _ hx)
      · -- esSorted
        exact (List.pairwise_cons.1 hSort).2
      · -- esNodup
        exact (List.nodup_cons.1 hND).2
      · -- cover
        exact (addShow_flatten _ _ _).trans (hCov.cons _)
      · -- startsAcct
        simp only [List.map_cons, List.cons_append]
        exact List.perm_middle.symm.trans hAcct
    · -- numeric
      have hc : c = (st.next_stage : Int) - 1 := by omega
      have hle : (st.next_stage : Int) - 1 ≤ c + 1 := by omega
      show ((st.next_stage + 1 : Nat) : Int) - 1 = max ((st.next_stage : Int) - 1) (c + 1)
      rw [max_eq_right hle]
      push_cast
      omega

lemma inv_step_end {shows : List Show} {es : List Event} {j : Nat} {st st2 : SweepState}
    {c : Int} (hInv : SweepInv shows (endMarker shows j :: es) st c)
    (hstep : step shows st (endMarker shows j) = some st2) :
    SweepInv shows es st2 (c - 1) ∧
      (st2.next_stage : Int) - 1 = max ((st.next_stage : Int) - 1) (c - 1) := by
  obtain ⟨hAS, hAB, hAN, hSB, hNS, hKE, hCE, hOK, hAT, hACT, hAU, hSF, hSE, hSub, hSort,
    hND, hCov, hAcct⟩ := hInv
  have keysNodup : (st.schedule.map Prod.fst).Nodup := by
    rw [hKE]
    exact List.nodup_range' _ _
  cases hlk : lookupStage st.show_stage j with
  | none =>
    have hnone : step shows st (endMarker shows j) = none := by
      simp [step, endMarker, hlk]
    rw [hnone] at hstep
    exact absurd hstep (by simp)
  | some s =>
    have hstepEq : step shows st (endMarker shows j) = some
        ⟨List.orderedInsert (· ≤ ·) s st.available, st.next_stage,
         st.schedule, st.show_stage⟩ := by
      simp [step, endMarker, hlk]
    rw [hstepEq] at hstep
    obtain rfl := (Option.some.inj hstep).symm
    obtain ⟨hsnotav, lst0, hlst0, hlast0⟩ := hACT j s hlk (List.mem_cons_self _ _)
    have hsb : 1 ≤ s ∧ s < st.next_stage := hSB _ (lookupStage_mem hlk)
    have hlen : (List.orderedInsert (· ≤ ·) s st.available).length =
        st.available.length + 1 :=
      (List.perm_orderedInsert _ s st.available).length_eq
    have hFil : ((endMarker shows j :: es).filter isStart) = es.filter isStart :=
      List.filter_cons_of_neg (by simp [isStart, endMarker])
    rw [hFil] at hAcct
    constructor
    · refine ⟨?_, ?_, ?_, ?_, ?_, ?_, ?_, ?_, ?_, ?_, ?_, ?_, ?_, ?_, ?_, ?_, ?_, ?_⟩
      · -- availSorted
        exact hAS.orderedInsert s _
      · -- availBound
        intro x hx
        rcases (List.mem_orderedInsert _).1 hx with rfl | hx
        · exact hsb
        · exact hAB x hx
      · -- availNodup
        exact ((List.perm_orderedInsert _ s st.available).nodup_iff).2
          (List.nodup_cons.2 ⟨hsnotav, hAN⟩)
      · -- stageBound
        exact hSB
      · -- nsPos
        exact hNS
      · -- keysEq
        exact hKE
      · -- countEq
        show ((List.orderedInsert (· ≤ ·) s st.available).length : Int) =
          (st.next_stage : Int) - 1 - (c - 1)
        rw [hlen]
        push_cast
        omega
      · -- schedOK
        exact hOK
      · -- availTime
        intro x hx lst hm ev hev
        rcases (List.mem_orderedInsert _).1 hx with rfl | hx2
        · have hl : lst = lst0 := keys_nodup_entry_unique keysNodup hm hlst0
          subst hl
          rw [lastStop_eq hlast0]
          have hrel := (List.pairwise_cons.1 hSort).1 ev hev
          exact eventLE_fst hrel
        · exact hAT x hx2 lst hm ev (List.mem_cons_of_mem _ hev)
      · -- active
        intro i s2 hlk2 hendi
        have hne : i ≠ j := by
          rintro rfl
          exact (List.nodup_cons.1 hND).1 hendi
        obtain ⟨hnot, lst2, hm2, hl2⟩ := hACT i s2 hlk2 (List.mem_cons_of_mem _ hendi)
        have hs2ne : s2 ≠ s := fun heq =>
          hne (hAU i j s2 s hlk2 hlk (List.mem_cons_of_mem _ hendi)
            (List.mem_cons_self _ _) heq)
        refine ⟨?_, lst2, hm2, hl2⟩
        intro hmem
        rcases (List.mem_orderedInsert _).1 hmem with heq | hmem2
        · exact hs2ne heq
        · exact hnot hmem2
      · -- activeUniq
        intro i1 i2 s1 s2 h1 h2 he1 he2 heq
        exact hAU i1 i2 s1 s2 h1 h2 (List.mem_cons_of_mem _ he1)
          (List.mem_cons_of_mem _ he2) heq
      · -- startFresh
        intro i hi
        exact hSF i (List.mem_cons_of_mem _ hi)
      · -- startEnd
        intro i hi
        rcases List.mem_cons.1 (hSE i (List.mem_cons_of_mem _ hi)) with heq | hm
        · have hij : i = j := congrArg (fun x : Event => x.2.2) heq
          subst hij
          have hnone := hSF i (List.mem_cons_of_mem _ hi)
          rw [hnone] at hlk
          exact absurd hlk (by simp)
        · exact hm
      · -- esSub
        exact fun x hx => hSub x (List.mem_cons_of_mem _ hx)
      · -- esSorted
        exact (List.pairwise_cons.1 hSort).2
      · -- esNodup
        exact (List.nodup_cons.1 hND).2
      · -- cover
        exact hCov
      · -- startsAcct
        exact hAcct
    · -- numeric
      have hle : c - 1 ≤ (st.next_stage : Int) - 1 := by omega
      show (st.next_stage : Int) - 1 = max ((st.next_stage : Int) - 1) (c - 1)
      rw [max_eq_left hle]

/-- One-step invariant preservation for the sweep loop. -/
lemma inv_step {shows : List Show} {es : List Event} {e : Event} {st st2 : SweepState}
    {c : Int} (hInv : SweepInv shows (e :: es) st c)
    (hstep : step shows st e = some st2) :
    SweepInv shows es st2 (c + delta e) ∧
      (st2.next_stage : Int) - 1 = max ((st.next_stage : Int) - 1) (c + delta e) := by
  have he : e ∈ eventsOf shows := hInv.esSub e (List.mem_cons_self _ _)
  rcases mem_eventsOf.1 he with ⟨j, hj, hidx, rfl | rfl⟩
  · rw [delta_start]
    exact inv_step_start hInv hstep
  · rw [delta_end]
    have h := inv_step_end hInv hstep
    have harith : c + -1 = c - 1 := by omega
    rw [harith]
    exact h

lemma inv_run {shows : List Show} : ∀ (es : List Event) (st : SweepState) (c : Int)
    (stF : SweepState), SweepInv shows es st c → runSweep shows st es = some stF →
    (∃ cF, SweepInv shows [] stF cF) ∧
      (stF.next_stage : Int) - 1 =
        (runMax (es.map delta) (c, (st.next_stage : Int) - 1)).2 := by
  intro es
  induction es with
  | nil =>
    intro st c stF hInv hrun
    obtain rfl := Option.some.inj hrun
    exact ⟨⟨c, hInv⟩, rfl⟩
  | cons e rest ih =>
    intro st c stF hInv hrun
    cases hstep : step shows st e with
    | none =>
      rw [show runSweep shows st (e :: rest) = none from by simp only [runSweep, hstep]]
        at hrun
      exact absurd hrun (by simp)
    | some st2 =>
      have hrun2 : runSweep shows st2 rest = some stF := by
        have h := hrun
        simp only [runSweep, hstep] at h
        exact h
      obtain ⟨hInv2, hnum⟩ := inv_step hInv hstep
      obtain ⟨hEx, hnum2⟩ := ih st2 (c + delta e) stF hInv2 hrun2
      refine ⟨hEx, ?_⟩
      show (stF.next_stage : Int) - 1 =
        (runMax (rest.map delta) (c + delta e,
          max ((st.next_stage : Int) - 1) (c + delta e))).2
      rw [← hnum]
      exact hnum2

lemma inv_init (shows : List Show) : SweepInv shows (sortedEvents shows) initState 0 := by
  refine ⟨?_, ?_, ?_, ?_, ?_, ?_, ?_, ?_, ?_, ?_, ?_, ?_, ?_, ?_, ?_, ?_, ?_, ?_⟩
  · exact List.sorted_nil
  · intro x hx
    exact absurd hx (List.not_mem_nil x)
  · exact List.nodup_nil
  · intro p hp
    exact absurd hp (List.not_mem_nil p)
  · exact le_refl 1
  · rfl
  · decide
  · intro p hp
    exact absurd hp (List.not_mem_nil p)
  · intro s hs
    exact absurd hs (List.not_mem_nil s)
  · intro i s hlk
    simp [initState, lookupStage] at hlk
  · intro i1 i2 s1 s2 h1
    simp [initState, lookupStage] at h1
  · intro i _
    rfl
  · intro i hi
    have hlt : i < shows.length := startMarker_idx_lt (mem_sortedEvents.1 hi)
    exact mem_sortedEvents.2 (endMarker_mem_eventsOf hlt)
  · exact fun e he => mem_sortedEvents.1 he
  · exact sorted_sortedEvents shows
  · exact nodup_sortedEvents shows
  · exact List.Perm.refl _
  · show (([] : List Nat) ++ ((sortedEvents shows).filter isStart).map (fun e => e.2.2)).Perm
      (List.range shows.length)
    simp only [List.nil_append]
    have h2 : ((eventsOf shows).filter isStart).map (fun e => e.2.2) =
        List.range shows.length := by
      rw [eventsOf, eventsFrom_filter_starts]
      exact (List.range_eq_range' _).symm
    have h3 := List.Perm.map (fun e : Event => e.2.2)
      (List.Perm.filter isStart (perm_sortedEvents shows))
    rw [h2] at h3
    exact h3

lemma final_state (shows : List Show) {stF : SweepState}
    (hrun : runSweep shows initState (sortedEvents shows) = some stF) :
    (∃ cF, SweepInv shows [] stF cF) ∧
      (stF.next_stage : Int) - 1 = max_overlap shows := by
  obtain ⟨hEx, hnum⟩ := inv_run (sortedEvents shows) initState 0 stF (inv_init shows) hrun
  refine ⟨hEx, ?_⟩
  rw [max_overlap_runMax]
  have h0 : ((initState.next_stage : Nat) : Int) - 1 = 0 := by norm_num [initState]
  rw [h0] at hnum
  exact hnum

lemma map_getD_range : ∀ (shows : List Show),
    (List.range shows.length).map (fun i => shows.getD i dShow) = shows := by
  intro shows
  induction shows with
  | nil => rfl
  | cons a tl ih =>
    rw [List.length_cons, List.range_succ_eq_map]
    simp only [List.map_cons, List.map_map, List.getD_cons_zero]
    congr 1

lemma generate_schedule_inv {shows : List Show} {m : List (Nat × List Show)}
    (h : generate_schedule shows = some m) :
    ∃ stF cF, runSweep shows initState (sortedEvents shows) = some stF ∧
      stF.schedule = m ∧ SweepInv shows [] stF cF ∧
      (stF.next_stage : Int) - 1 = max_overlap shows := by
  unfold generate_schedule at h
  cases hrun : runSweep shows initState (sortedEvents shows) with
  | none =>
    rw [hrun] at h
    simp at h
  | some stF =>
    rw [hrun] at h
    obtain ⟨cF, hInv⟩ := (final_state shows hrun).1
    exact ⟨stF, cF, rfl, Option.some.inj h, hInv, (final_state shows hrun).2⟩

lemma schedule_keys {shows : List Show} {m : List (Nat × List Show)}
    (h : generate_schedule shows = some m) :
    ∃ K : Nat, (K : Int) = max_overlap shows ∧ m.map Prod.fst = List.range' 1 K := by
  obtain ⟨stF, cF, hrun, hm, hInv, hmax⟩ := generate_schedule_inv h
  refine ⟨stF.next_stage - 1, ?_, ?_⟩
  · rw [← hmax]
    have hpos := hInv.nsPos
    omega
  · rw [← hm]
    exact hInv.keysEq

lemma chain_starts {lst : List Show}
    (hch : List.Chain' (fun a b => a.stop ≤ b.start) lst)
    (hwf : ∀ x ∈ lst, x.start ≤ x.stop) :
    lst.Pairwise (fun a b => a.start ≤ b.start) := by
  have hch2 : List.Chain' (fun a b : Show => a.start ≤ b.start) lst := by
    induction lst with
    | nil => exact List.chain'_nil
    | cons a tl ih =>
      rw [List.chain'_cons'] at hch ⊢
      refine ⟨?_, ih hch.2 (fun x hx => hwf x (List.mem_cons_of_mem _ hx))⟩
      intro b hb
      have h1 := hch.1 b hb
      have h2 := hwf a (List.mem_cons_self _ _)
      omega
  haveI : IsTrans Show (fun a b => a.start ≤ b.start) :=
    ⟨fun _ _ _ h1 h2 => le_trans h1 h2⟩
  exact List.chain'_iff_pairwise.1 hch2

/-- Claim C1: for every input on which `generate_schedule` returns a mapping,
the number of distinct resource ids equals the max overlap (computed
independently by the signed-delta sweep `max_overlap`), and the ids used are
exactly `1 .. K`. -/
theorem C1_minimality (shows : List Show) (m : List (Nat × List Show))
    (h : generate_schedule shows = some m) :
    ((m.map Prod.fst).length : Int) = max_overlap shows ∧
    (m.map Prod.fst).Nodup ∧
    (∀ j : Nat, j ∈ m.map Prod.fst ↔ 1 ≤ j ∧ (j : Int) ≤ max_overlap shows) := by
  obtain ⟨K, hK, hkeys⟩ := schedule_keys h
  rw [hkeys]
  refine ⟨?_, List.nodup_range' _ _, ?_⟩
  · rw [List.length_range']
    exact hK
  · intro j
    rw [List.mem_range'_1]
    omega

/-- Claim C1 witness: Scenario A, three shows with max overlap 2. -/
theorem C1_minimality_witness :
    ((scenarioA_out.map Prod.fst).length : Int) = max_overlap scenarioA ∧
    (scenarioA_out.map Prod.fst).Nodup ∧
    (∀ j : Nat, j ∈ scenarioA_out.map Prod.fst ↔
      1 ≤ j ∧ (j : Int) ≤ max_overlap scenarioA) :=
  C1_minimality scenarioA scenarioA_out (by decide)

/-- Claim C2: in every returned mapping, consecutive shows on one stage do not
overlap: each show's end time is at most the next show's start time. -/
theorem C2_nonoverlap (shows : List Show) (m : List (Nat × List Show))
    (s : Nat) (lst : List Show) (h : generate_schedule shows = some m)
    (hmem : (s, lst) ∈ m) :
    lst.Chain' (fun a b => a.stop ≤ b.start) := by
  obtain ⟨stF, cF, hrun, hm, hInv, _⟩ := generate_schedule_inv h
  subst hm
  exact (hInv.schedOK _ hmem).2.1

/-- Claim C2 witness: stage 1 of Scenario A holds shows ending at 10 and
starting at 15. -/
theorem C2_nonoverlap_witness :
    List.Chain' (fun a b : Show => a.stop ≤ b.start)
      [⟨"show_1", 0, 10⟩, ⟨"show_3", 15, 20⟩] :=
  C2_nonoverlap scenarioA scenarioA_out 1
    [⟨"show_1", 0, 10⟩, ⟨"show_3", 15, 20⟩] (by decide) (by decide)

/-- Claim C3 counterexample: on a zero-duration show the end marker sorts
before the start marker and the `show_stage[index]` lookup fails (Python
`KeyError`), so `generate_schedule` is not total as claimed. -/
theorem C3_counterexample : generate_schedule [⟨"x", 0, 0⟩] = none := by decide

/-- Claim C3 amended: `generate_schedule` is total over inputs in which every
show satisfies `start < end` (in particular the empty input yields the empty
mapping); on a show with `end ≤ start` it fails with a `KeyError` (`none`). -/
theorem C3_amended_total :
    (∀ shows : List Show, (∀ s ∈ shows, s.start < s.stop) →
      ∃ m, generate_schedule shows = some m) ∧
    generate_schedule [] = some [] ∧
    generate_schedule [⟨"x", 0, 0⟩] = none :=
  ⟨fun shows hwf => generate_schedule_total shows hwf, by decide, by decide⟩

/-- Claim C3 amended witness: a well-formed singleton input succeeds. -/
theorem C3_amended_total_witness :
    ∃ m, generate_schedule [⟨"a", 0, 1⟩] = some m :=
  C3_amended_total.1 [⟨"a", 0, 1⟩] (by decide)

/-- Claim C4: the concatenation of all returned stage sequences is a
permutation of the input (every show lands on exactly one stage), so the
total count over the stages equals the input count. -/
theorem C4_coverage (shows : List Show) (m : List (Nat × List Show))
    (h : generate_schedule shows = some m) :
    ((m.map Prod.snd).flatten).Perm shows ∧
    (m.map (fun p => p.2.length)).sum = shows.length := by
  obtain ⟨stF, cF, hrun, hm, hInv, _⟩ := generate_schedule_inv h
  subst hm
  have hAcct := hInv.startsAcct
  simp only [List.filter_nil, List.map_nil, List.append_nil] at hAcct
  have h3 : (stF.show_stage.map (fun p => shows.getD p.1 dShow)).Perm
      ((List.range shows.length).map (fun i => shows.getD i dShow)) := by
    have h4 := hAcct.map (fun i => shows.getD i dShow)
    rwa [List.map_map] at h4
  have h5 := hInv.cover.trans h3
  rw [map_getD_range] at h5
  refine ⟨h5, ?_⟩
  have h6 := h5.length_eq
  rw [List.length_flatten, List.map_map] at h6
  exact h6

/-- Claim C4 witness: Scenario A, all three shows appear exactly once. -/
theorem C4_coverage_witness :
    ((scenarioA_out.map Prod.snd).flatten).Perm scenarioA ∧
    (scenarioA_out.map (fun p => p.2.length)).sum = scenarioA.length :=
  C4_coverage scenarioA scenarioA_out (by decide)

/-- Claim C7: every stage's returned sequence is sorted ascending by start
time. -/
theorem C7_sorted_by_start (shows : List Show) (m : List (Nat × List Show))
    (s : Nat) (lst : List Show) (h : generate_schedule shows = some m)
    (hmem : (s, lst) ∈ m) :
    lst.Pairwise (fun a b => a.start ≤ b.start) := by
  obtain ⟨stF, cF, hrun, hm, hInv, _⟩ := generate_schedule_inv h
  subst hm
  obtain ⟨_, hch, hwf⟩ := hInv.schedOK _ hmem
  exact chain_starts hch hwf

/-- Claim C7 witness: stage 1 of Scenario A is sorted by start time. -/
theorem C7_sorted_by_start_witness :
    List.Pairwise (fun a b : Show => a.start ≤ b.start)
      [⟨"show_1", 0, 10⟩, ⟨"show_3", 15, 20⟩] :=
  C7_sorted_by_start scenarioA scenarioA_out 1
    [⟨"show_1", 0, 10⟩, ⟨"show_3", 15, 20⟩] (by decide) (by decide)

/-- Claim C10: on well-formed input the keys of the returned mapping, in
insertion order, are exactly `1, 2, ..., K` ascending, so iterating the
mapping without sorting (as the JSON serialization in `main` does) visits
resource ids in ascending order. -/
theorem C10_keys_ascending (shows : List Show)
    (hwf : ∀ s ∈ shows, s.start < s.stop) :
    ∃ m, generate_schedule shows = some m ∧
      m.map Prod.fst = List.range' 1 m.length := by
  obtain ⟨m, hm⟩ := generate_schedule_total shows hwf
  obtain ⟨K, hK, hkeys⟩ := schedule_keys hm
  have hlen : m.length = K := by
    have h := congrArg List.length hkeys
    rwa [List.length_map, List.length_range'] at h
  exact ⟨m, hm, by rw [hlen]; exact hkeys⟩

/-- Claim C10 witness: Scenario B yields keys `[1, 2]` in insertion order. -/
theorem C10_keys_ascending_witness :
    ∃ m, generate_schedule scenarioB = some m ∧
      m.map Prod.fst = List.range' 1 m.length :=
  C10_keys_ascending scenarioB (by decide)

/-- Claim C5: at a shared timestamp the end marker sorts strictly before the
start marker (an end is below a start, a start is never below an end), so
boundary-touching shows can share a stage; in particular Scenario B uses
exactly the two resource ids 1 and 2, with shows a and b sharing stage 1. -/
theorem C5_tie_break :
    (∀ (t : Int) (i j : Nat), eventLE (t, 0, i) (t, 1, j) ∧
      decide (eventLE (t, 1, i) (t, 0, j)) = false) ∧
    generate_schedule scenarioB = some scenarioB_out ∧
    scenarioB_out.map Prod.fst = [1, 2] := by
  refine ⟨?_, by decide, by decide⟩
  intro t i j
  constructor
  · unfold eventLE
    dsimp only
    omega
  · rw [decide_eq_false_iff_not]
    unfold eventLE
    dsimp only
    omega

/-- Claim C6: at a start marker, a non-empty free pool yields its least
element (the popped stage is below every pool member), the pool shrinks by
that element and the counter is unchanged; an empty pool yields `next_stage`
and the counter is incremented.  Either way the assignment is recorded in
`show_stage` and the show appended to that stage's sequence. -/
theorem C6_start_assignment (shows : List Show) (st : SweepState) (t : Int) (i : Nat)
    (hs : st.available.Sorted (fun a b => a ≤ b)) :
    (st.available = [] →
      step shows st (t, 1, i) = some ⟨[], st.next_stage + 1,
        addShow st.schedule st.next_stage (shows.getD i dShow),
        (i, st.next_stage) :: st.show_stage⟩) ∧
    (∀ s pool, st.available = s :: pool →
      (∀ x ∈ st.available, s ≤ x) ∧
      step shows st (t, 1, i) = some ⟨pool, st.next_stage,
        addShow st.schedule s (shows.getD i dShow), (i, s) :: st.show_stage⟩) := by
  constructor
  · intro hav
    simp [step, hav]
  · intro s pool hav
    constructor
    · intro x hx
      rw [hav] at hx hs
      rcases List.mem_cons.1 hx with rfl | hx
      · exact le_refl x
      · exact (List.sorted_cons.1 hs).1 x hx
    · simp [step, hav]

/-- Claim C6 witness: with sorted pool `[2, 3]` the start marker pops 2. -/
theorem C6_start_assignment_witness :
    (∀ x ∈ (SweepState.mk [2, 3] 4 [] []).available, 2 ≤ x) ∧
    step [] (SweepState.mk [2, 3] 4 [] []) (0, 1, 0) = some ⟨[3], 4,
      addShow (SweepState.mk [2, 3] 4 [] []).schedule 2 (([] : List Show).getD 0 dShow),
      (0, 2) :: (SweepState.mk [2, 3] 4 [] []).show_stage⟩ :=
  (C6_start_assignment [] (SweepState.mk [2, 3] 4 [] []) 0 0 (by decide)).2 2 [3] rfl

/-- Claim C8: `generate_schedule` is deterministic; the embedding is a pure
function of the input list, so two runs on the same input agree. -/
theorem C8_deterministic (shows : List Show)
    (m1 m2 : Option (List (Nat × List Show)))
    (h1 : generate_schedule shows = m1) (h2 : generate_schedule shows = m2) :
    m1 = m2 :=
  h1.symm.trans h2

/-- Claim C8 witness: two evaluations on Scenario B agree. -/
theorem C8_deterministic_witness :
    (some scenarioB_out : Option (List (Nat × List Show))) = some scenarioB_out :=
  C8_deterministic scenarioB (some scenarioB_out) (some scenarioB_out)
    (by decide) (by decide)

/-- Claim C9: resource-name resolution in `print_schedule` is total: a stage
id within `1 .. names.length` resolves to the stored name at position
`stage - 1`, and any other id falls back to the synthesized label instead of
an out-of-range error. -/
theorem C9_stage_label (names : List String) (stage : Nat) :
    (0 < stage → stage ≤ names.length → ∃ hlt : stage - 1 < names.length,
      stage_label names stage = names.get ⟨stage - 1, hlt⟩) ∧
    ((stage = 0 ∨ names.length < stage) →
      stage_label names stage = "Stage " ++ toString stage) := by
  constructor
  · intro h1 h2
    have hlt : stage - 1 < names.length := by omega
    refine ⟨hlt, ?_⟩
    rw [stage_label, if_pos ⟨h1, h2⟩, List.getD_eq_getElem names "" hlt]
    rfl
  · intro hout
    rw [stage_label, if_neg (by omega)]

/-- Claim C9 witness: in-range id 1 maps to the first name, out-of-range id 4
falls back to the synthesized label. -/
theorem C9_stage_label_witness :
    stage_label ["Main Stage", "Second Stage"] 1 = "Main Stage" ∧
    stage_label ["Main Stage", "Second Stage"] 4 = "Stage 4" := by
  constructor
  · obtain ⟨hlt, heq⟩ := (C9_stage_label ["Main Stage", "Second Stage"] 1).1
      (by decide) (by decide)
    rw [heq]
    rfl
  · exact (C9_stage_label ["Main Stage", "Second Stage"] 4).2 (by decide)
